import Mathlib

/-!
# `get_string` of `snippets/prog1.c`

A shallow embedding of the one function of the repository,

```c
#define BUFSIZE 1024

string get_string(const char* prompt)
{
    char buf[BUFSIZE];

    printf("%s", prompt);
    fgets(buf, sizeof(buf), stdin);
    buf[strlen(buf) - 1] = '\0';

    return strdup(buf);
}
```

The function is run on an explicit world: the unread bytes of `stdin`, the
bytes written to `stdout`, a block memory (the automatic array `buf` and the
blocks handed out by `malloc` are blocks of it), and a log of the stream and
assignment events in program order.  Every step either yields a value or is
undefined behaviour; the world at the point where execution became undefined
is kept, so that what happened before that point can still be stated.
-/

namespace Prog1

/-! ## Data model -/

/-- A `char`, kept as a natural number (the values in use are below 256). -/
abbrev Byte := Nat

/-- The macro `BUFSIZE` (line 11). -/
def BUFSIZE : Nat := 1024

/-- The string terminator `'\0'`. -/
def NUL : Byte := 0

/-- The line terminator `'\n'`. -/
def NEWLINE : Byte := 10

/-- Width of `size_t` in bits (LP64). -/
def SIZE_BITS : Nat := 64

/-- Subtraction of `size_t` values: unsigned, wrapping modulo `2 ^ SIZE_BITS`. -/
def size_sub (a b : Nat) : Nat := (a + 2 ^ SIZE_BITS - b % 2 ^ SIZE_BITS) % 2 ^ SIZE_BITS

/-- A pointer to the first byte of a memory block, named by the block's number. -/
abbrev Ptr := Nat

/-- Modelled from the spec: the type `string` of the header `prog1.h`, which
is not among the sources; the specification's Result String, a heap-allocated,
NUL-terminated byte sequence handed to the caller, here the pointer to it, or
`none` for the null pointer. -/
abbrev string := Option Ptr

/-- The ways in which a step of the program can have no defined behaviour. -/
inductive Undefined where
  /-- a read beyond the end of an array -/
  | outOfBoundsRead
  /-- a write outside the array it is addressed through -/
  | outOfBoundsWrite
  /-- an access through a pointer to no live object -/
  | invalidPointer
  deriving DecidableEq

/-- The result of a step: a value, or undefined behaviour. -/
inductive Result (α : Type) where
  | ok (a : α)
  | undefined (u : Undefined)
  deriving DecidableEq

/-- The observable events of a run, in program order. -/
inductive Event where
  /-- one library call appended these bytes to `stdout` -/
  | wrote (bytes : List Byte)
  /-- one library call took these bytes off `stdin` -/
  | consumed (bytes : List Byte)
  /-- the program executed an assignment `p[i] = v` -/
  | assign (p : Ptr) (i : Nat)
  deriving DecidableEq

/-- The state the function runs on. -/
structure World where
  /-- the bytes of standard input not consumed yet; `[]` is end-of-file -/
  stdin : List Byte
  /-- the bytes written to standard output so far -/
  stdout : List Byte
  /-- the memory blocks; block `p` is `none` once its lifetime has ended -/
  mem : List (Option (List Byte))
  /-- the events so far -/
  log : List Event

/-- What the C implementation decides and the program cannot: the value an
uninitialised byte of automatic storage happens to hold, and whether `malloc`
can satisfy a request of a given size. -/
structure Env where
  /-- the indeterminate value of byte `i` of a fresh automatic array -/
  indeterminate : Nat → Byte
  /-- whether `malloc n` succeeds -/
  mallocOk : Nat → Bool

/-- A computation over the world; on undefined behaviour it stops and keeps
the world reached so far. -/
def Prog (α : Type) : Type := World → Result α × World

/-- Sequencing: run `m`, and run `f` on its value unless `m` was undefined. -/
def Prog.bind {α β : Type} (m : Prog α) (f : α → Prog β) : Prog β := fun w =>
  match m w with
  | (Result.ok a, w1) => f a w1
  | (Result.undefined u, w1) => (Result.undefined u, w1)

/-- A computation that only returns a value. -/
def Prog.pure {α : Type} (a : α) : Prog α := fun w => (Result.ok a, w)

instance : Monad Prog where
  pure := Prog.pure
  bind := Prog.bind

/-- The contents of block `p`, when it is live. -/
def World.block (w : World) (p : Ptr) : Option (List Byte) :=
  match w.mem.get? p with
  | some (some bs) => some bs
  | _ => none

/-- The bytes of a C string stored in `bytes`: those before the first NUL. -/
def cstr (bytes : List Byte) : List Byte := bytes.takeWhile (fun b => b != NUL)

/-- The C string that `p` points to, when `p` is live. -/
def World.cstring (w : World) (p : Ptr) : Option (List Byte) :=
  (w.block p).map cstr

/-! ## The library calls and language steps used by `get_string` -/

/-- Entering the scope of `char buf[n];`: a new block of `n` bytes of
indeterminate value. -/
def autoArray (env : Env) (n : Nat) : Prog Ptr := fun w =>
  (Result.ok w.mem.length,
    { w with mem := w.mem ++ [some ((List.range n).map env.indeterminate)] })

/-- Leaving the scope of an automatic array: its lifetime ends. -/
def endLifetime (p : Ptr) : Prog Unit := fun w =>
  (Result.ok (), { w with mem := w.mem.set p none })

/-- The call `printf("%s", s)`: the bytes of the C string `s` go to `stdout`,
nothing else does; the value is the number of bytes written. -/
def printf_s (s : List Byte) : Prog Nat := fun w =>
  (Result.ok (cstr s).length,
    { w with stdout := w.stdout ++ cstr s, log := w.log ++ [Event.wrote (cstr s)] })

/-- The bytes one `fgets` call with room for `k` bytes takes off a stream: it
stops after `k` bytes, after a newline (which it takes), or at end-of-file. -/
def fgetsTake : Nat → List Byte → List Byte
  | 0, _ => []
  | _ + 1, [] => []
  | k + 1, b :: s => if b = NEWLINE then [b] else b :: fgetsTake k s

/-- The call `fgets(buf, n, stdin)`.  At end-of-file with no byte read it
returns NULL and leaves the array as it was; otherwise it stores the bytes read
followed by a NUL and returns `buf`. -/
def fgets (buf : Ptr) (n : Nat) : Prog (Option Ptr) := fun w =>
  match w.block buf with
  | none => (Result.undefined Undefined.invalidPointer, w)
  | some old =>
    if old.length < n then (Result.undefined Undefined.outOfBoundsWrite, w)
    else if n = 0 then (Result.ok none, w)
    else
      match w.stdin with
      | [] => (Result.ok none, { w with log := w.log ++ [Event.consumed []] })
      | _ :: _ =>
        let line := fgetsTake (n - 1) w.stdin
        (Result.ok (some buf),
          { w with
            stdin := w.stdin.drop line.length
            mem := w.mem.set buf (some (line ++ NUL :: old.drop (line.length + 1)))
            log := w.log ++ [Event.consumed line] })

/-- The call `strlen(p)`: the number of bytes before the first NUL; when the
array holds no NUL the scan runs off its end. -/
def strlen (p : Ptr) : Prog Nat := fun w =>
  match w.block p with
  | none => (Result.undefined Undefined.invalidPointer, w)
  | some bs =>
    if NUL ∈ bs then (Result.ok (cstr bs).length, w)
    else (Result.undefined Undefined.outOfBoundsRead, w)

/-- The assignment `p[i] = v`. -/
def assign (p : Ptr) (i : Nat) (v : Byte) : Prog Unit := fun w =>
  match w.block p with
  | none => (Result.undefined Undefined.invalidPointer, { w with log := w.log ++ [Event.assign p i] })
  | some bs =>
    if i < bs.length then
      (Result.ok (), { w with mem := w.mem.set p (some (bs.set i v)), log := w.log ++ [Event.assign p i] })
    else (Result.undefined Undefined.outOfBoundsWrite, { w with log := w.log ++ [Event.assign p i] })

/-- The call `strdup(p)`: a new block holding a copy of the C string at `p`
and its terminator, or NULL when `malloc` fails. -/
def strdup (env : Env) (p : Ptr) : Prog (Option Ptr) := fun w =>
  match w.block p with
  | none => (Result.undefined Undefined.invalidPointer, w)
  | some bs =>
    if NUL ∈ bs then
      if env.mallocOk ((cstr bs).length + 1) then
        (Result.ok (some w.mem.length), { w with mem := w.mem ++ [some (cstr bs ++ [NUL])] })
      else (Result.ok none, w)
    else (Result.undefined Undefined.outOfBoundsRead, w)

/-- The call `free(p)`, as the caller of `get_string` may make it. -/
def free (p : Ptr) : Prog Unit := fun w =>
  match w.block p with
  | none => (Result.undefined Undefined.invalidPointer, w)
  | some _ => (Result.ok (), { w with mem := w.mem.set p none })

/-! ## The function -/

/-- The function `get_string` (lines 17 to 26).  The argument `prompt` is the
array of bytes the pointer `prompt` points into; the value `none` is the null
pointer. -/
def get_string (env : Env) (prompt : List Byte) : Prog string := do
  -- line 19: char buf[BUFSIZE];
  let buf ← autoArray env BUFSIZE
  -- line 21: printf("%s", prompt);
  let _ ← printf_s prompt
  -- line 22: fgets(buf, sizeof(buf), stdin); the value is not looked at
  let _ ← fgets buf BUFSIZE
  -- line 23: buf[strlen(buf) - 1] = 0; the subtraction is made in size_t
  let n ← strlen buf
  assign buf (size_sub n 1) NUL
  -- line 25: return strdup(buf); the scope of buf ends
  let r ← strdup env buf
  endLifetime buf
  return r

/-- The string a call hands to its caller: `none` for the null pointer,
otherwise the C string the returned pointer points to in the final memory. -/
def returned (out : Result string × World) : Result (Option (List Byte)) :=
  match out.1 with
  | Result.undefined u => Result.undefined u
  | Result.ok none => Result.ok none
  | Result.ok (some p) =>
    match out.2.cstring p with
    | some s => Result.ok (some s)
    | none => Result.undefined Undefined.invalidPointer

/-- The bytes the `fgets` call of `get_string` takes off the unread input. -/
def lineRead (input : List Byte) : List Byte := fgetsTake (BUFSIZE - 1) input

/-- What a caller can observe of a call: the string handed back, the input
left unread and the output written. -/
def observe (out : Result string × World) :
    Result (Option (List Byte)) × List Byte × List Byte :=
  (returned out, out.2.stdin, out.2.stdout)

/-- The length of the shortest start of `input` that ends with its first line
terminator (beyond the length of `input` when it holds none). -/
def lineEnd (input : List Byte) : Nat :=
  (input.takeWhile (fun b => b != NEWLINE)).length + 1

/-- The number of bytes one call consumes, in the words of the
specification: up to the end of the first line, `BUFSIZE - 1` bytes, or the
whole stream, whichever is least. -/
def consumedCount (input : List Byte) : Nat :=
  min (min (lineEnd input) (BUFSIZE - 1)) input.length

/-- A world with the given unread input, nothing written and an empty memory. -/
def stdWorld (input : List Byte) : World :=
  { stdin := input, stdout := [], mem := [], log := [] }

/-- An implementation whose fresh automatic storage reads as zero bytes and
whose `malloc` succeeds. -/
def zeroEnv : Env := { indeterminate := fun _ => 0, mallocOk := fun _ => true }

/-- An implementation whose fresh automatic storage holds no zero byte. -/
def fullEnv : Env := { indeterminate := fun _ => 255, mallocOk := fun _ => true }

/-- An implementation whose `malloc` fails. -/
def noMemEnv : Env := { indeterminate := fun _ => 0, mallocOk := fun _ => false }

/-! ## The run of `get_string` in closed form

The definitions of this section restate the run of `get_string` case by case;
`get_string_eq` below proves them equal to the function. -/

/-- The contents of `buf` on entry: `BUFSIZE` indeterminate bytes. -/
def freshBuf (env : Env) : List Byte := (List.range BUFSIZE).map env.indeterminate

/-- The contents of `buf` after the `fgets` call, for the unread input `input`. -/
def bufAfterRead (env : Env) (input : List Byte) : List Byte :=
  match input with
  | [] => freshBuf env
  | _ :: _ =>
    fgetsTake (BUFSIZE - 1) input ++
      NUL :: (freshBuf env).drop ((fgetsTake (BUFSIZE - 1) input).length + 1)

/-- The index `strlen(buf) - 1` of the assignment, for the unread input `input`. -/
def stripIndex (env : Env) (input : List Byte) : Nat :=
  size_sub (cstr (bufAfterRead env input)).length 1

/-- The C string in `buf` after the assignment, for the unread input `input`. -/
def stripped (env : Env) (input : List Byte) : List Byte :=
  cstr ((bufAfterRead env input).set (stripIndex env input) NUL)

/-- The world after the `fgets` call, with `buf` still live. -/
def worldAfterRead (env : Env) (prompt : List Byte) (w : World) : World :=
  { stdin := w.stdin.drop (fgetsTake (BUFSIZE - 1) w.stdin).length
    stdout := w.stdout ++ cstr prompt
    mem := w.mem ++ [some (bufAfterRead env w.stdin)]
    log := w.log ++ [Event.wrote (cstr prompt), Event.consumed (fgetsTake (BUFSIZE - 1) w.stdin)] }

/-- The outcome of `get_string`, case by case. -/
def outcome (env : Env) (prompt : List Byte) (w : World) : Result (Option Ptr) × World :=
  let r := worldAfterRead env prompt w
  let a := { r with log := r.log ++ [Event.assign w.mem.length (stripIndex env w.stdin)] }
  if NUL ∈ bufAfterRead env w.stdin then
    if stripIndex env w.stdin < BUFSIZE then
      if env.mallocOk ((stripped env w.stdin).length + 1) then
        (Result.ok (some (w.mem.length + 1)),
          { a with mem := w.mem ++ [none, some (stripped env w.stdin ++ [NUL])] })
      else (Result.ok none, { a with mem := w.mem ++ [none] })
    else (Result.undefined Undefined.outOfBoundsWrite, a)
  else (Result.undefined Undefined.outOfBoundsRead, r)

/-- The last four steps of the function, for the scratch buffer `buf`. -/
def finish (env : Env) (buf : Ptr) : Prog (Option Ptr) :=
  Prog.bind (strlen buf) fun n =>
  Prog.bind (assign buf (size_sub n 1) NUL) fun _ =>
  Prog.bind (strdup env buf) fun r =>
  Prog.bind (endLifetime buf) fun _ => Prog.pure r

/-- The string a call hands back, as a function of the implementation's
choices and the unread input alone. -/
def returnedOf (env : Env) (input : List Byte) : Result (Option (List Byte)) :=
  if NUL ∈ bufAfterRead env input then
    if stripIndex env input < BUFSIZE then
      if env.mallocOk ((stripped env input).length + 1) then Result.ok (some (stripped env input))
      else Result.ok none
    else Result.undefined Undefined.outOfBoundsWrite
  else Result.undefined Undefined.outOfBoundsRead

/-! ## Facts about C strings held in byte lists -/

theorem cstr_cons_nul (l : List Byte) : cstr (NUL :: l) = [] := by
  simp [cstr]

theorem cstr_cons_of_ne (b : Byte) (l : List Byte) (h : b ≠ NUL) : cstr (b :: l) = b :: cstr l := by
  simp [cstr, h]

theorem cstr_length_le (l : List Byte) : (cstr l).length ≤ l.length := by
  induction l with
  | nil => simp [cstr]
  | cons b l ih =>
    by_cases h : b = NUL
    · subst h; simp [cstr_cons_nul]
    · simp [cstr_cons_of_ne b l h]; exact ih

theorem cstr_append_nul (l r : List Byte) : cstr (l ++ NUL :: r) = cstr l := by
  induction l with
  | nil => simp [cstr]
  | cons b l ih =>
    by_cases h : b = NUL
    · subst h; simp [cstr_cons_nul]
    · simp only [List.cons_append, cstr_cons_of_ne b _ h, ih]

theorem cstr_of_no_nul (l : List Byte) (h : NUL ∉ l) : cstr l = l := by
  induction l with
  | nil => rfl
  | cons b l ih =>
    simp only [List.mem_cons, not_or] at h
    rw [cstr_cons_of_ne b l (fun e => h.1 e.symm), ih h.2]

theorem nul_not_mem_cstr (l : List Byte) : NUL ∉ cstr l := by
  induction l with
  | nil => simp [cstr]
  | cons b l ih =>
    by_cases h : b = NUL
    · subst h; simp [cstr_cons_nul]
    · rw [cstr_cons_of_ne b l h]
      simp only [List.mem_cons, not_or]
      exact ⟨fun e => h e.symm, ih⟩

/-- Storing a NUL inside the string part of an array cuts the string there. -/
theorem cstr_set_nul (l : List Byte) (k : Nat) (h : k < (cstr l).length) :
    cstr (l.set k NUL) = (cstr l).take k := by
  induction l generalizing k with
  | nil => simp [cstr] at h
  | cons b l ih =>
    by_cases hb : b = NUL
    · subst hb; simp [cstr_cons_nul] at h
    · rw [cstr_cons_of_ne b l hb] at h ⊢
      cases k with
      | zero => simp [cstr_cons_nul]
      | succ k =>
        simp only [List.set_cons_succ, List.take_succ_cons, List.length_cons, Nat.succ_lt_succ_iff] at h ⊢
        rw [cstr_cons_of_ne _ _ hb, ih k h]

theorem nul_mem_set_nul (l : List Byte) (k : Nat) (h : k < l.length) : NUL ∈ l.set k NUL := by
  exact List.mem_iff_get.mpr ⟨⟨k, by simpa using h⟩, by simp⟩

theorem take_pred_eq_dropLast (l : List Byte) : l.take (l.length - 1) = l.dropLast := by
  rw [List.dropLast_eq_take]

/-! ## Facts about the bytes `fgets` takes -/

theorem fgetsTake_length_le (k : Nat) (s : List Byte) : (fgetsTake k s).length ≤ k := by
  induction k generalizing s with
  | zero => simp [fgetsTake]
  | succ k ih =>
    cases s with
    | nil => simp [fgetsTake]
    | cons b s =>
      by_cases h : b = NEWLINE
      · simp [fgetsTake, h]
      · simp [fgetsTake, h]; exact ih s

theorem fgetsTake_eq_take (k : Nat) (s : List Byte) :
    fgetsTake k s = s.take (fgetsTake k s).length := by
  induction k generalizing s with
  | zero => simp [fgetsTake]
  | succ k ih =>
    cases s with
    | nil => simp [fgetsTake]
    | cons b s =>
      by_cases h : b = NEWLINE
      · simp [fgetsTake, h]
      · simp only [fgetsTake, h, if_false, List.length_cons, List.take_succ_cons]
        rw [← ih s]

theorem fgetsTake_cons_ne_nil (k : Nat) (b : Byte) (s : List Byte) :
    fgetsTake (k + 1) (b :: s) ≠ [] := by
  by_cases h : b = NEWLINE <;> simp [fgetsTake, h]

theorem fgetsTake_cons_head (k : Nat) (b : Byte) (s : List Byte) :
    ∃ t, fgetsTake (k + 1) (b :: s) = b :: t := by
  by_cases h : b = NEWLINE
  · exact ⟨[], by simp [fgetsTake, h]⟩
  · exact ⟨fgetsTake k s, by simp [fgetsTake, h]⟩

/-- A newline can only be the last byte taken. -/
theorem newline_not_mem_dropLast_fgetsTake (k : Nat) (s : List Byte) :
    NEWLINE ∉ (fgetsTake k s).dropLast := by
  induction k generalizing s with
  | zero => simp [fgetsTake]
  | succ k ih =>
    cases s with
    | nil => simp [fgetsTake]
    | cons b s =>
      by_cases h : b = NEWLINE
      · simp [fgetsTake, h]
      · simp only [fgetsTake, h, if_false]
        cases ht : fgetsTake k s with
        | nil => simp
        | cons c t =>
          rw [List.dropLast_cons₂, ← ht]
          simp only [List.mem_cons, not_or]
          exact ⟨fun e => h e.symm, ih s⟩

/-- A line that fits is taken whole, newline included. -/
theorem fgetsTake_line (k : Nat) (s rest : List Byte) (hlen : s.length < k) (hnl : NEWLINE ∉ s) :
    fgetsTake k (s ++ NEWLINE :: rest) = s ++ [NEWLINE] := by
  induction s generalizing k with
  | nil =>
    cases k with
    | zero => simp at hlen
    | succ k => simp [fgetsTake]
  | cons b s ih =>
    cases k with
    | zero => simp at hlen
    | succ k =>
      simp only [List.mem_cons, not_or] at hnl
      simp only [List.length_cons, Nat.succ_lt_succ_iff] at hlen
      have hb : b ≠ NEWLINE := fun e => hnl.1 e.symm
      have hr := ih k hlen hnl.2
      show fgetsTake (k + 1) (b :: (s ++ NEWLINE :: rest)) = b :: (s ++ [NEWLINE])
      simp only [fgetsTake, if_neg hb, hr]

/-- With no newline among the first `k` bytes, exactly `k` bytes are taken. -/
theorem fgetsTake_long (k : Nat) (s : List Byte) (hlen : k ≤ s.length) (hnl : NEWLINE ∉ s.take k) :
    fgetsTake k s = s.take k := by
  induction k generalizing s with
  | zero => simp [fgetsTake]
  | succ k ih =>
    cases s with
    | nil => simp at hlen
    | cons b s =>
      simp only [List.take_succ_cons, List.mem_cons, not_or] at hnl
      simp only [List.length_cons, Nat.succ_le_succ_iff] at hlen
      have hb : b ≠ NEWLINE := fun e => hnl.1 e.symm
      simp only [fgetsTake, if_neg hb, List.take_succ_cons, ih s hlen hnl.2]

/-! ## The closed form is the function -/

theorem freshBuf_length (env : Env) : (freshBuf env).length = BUFSIZE := by
  simp [freshBuf]

theorem bufAfterRead_length (env : Env) (input : List Byte) :
    (bufAfterRead env input).length = BUFSIZE := by
  cases input with
  | nil => simp [bufAfterRead, freshBuf_length]
  | cons b s =>
    have h := fgetsTake_length_le (BUFSIZE - 1) (b :: s)
    simp only [bufAfterRead, List.length_append, List.length_cons, List.length_drop, freshBuf_length]
    simp only [BUFSIZE] at h ⊢
    omega

theorem set_snoc {α : Type} (m : List α) (x y : α) : (m ++ [x]).set m.length y = m ++ [y] := by
  induction m with
  | nil => rfl
  | cons a m ih => simp [ih]

theorem set_snoc₂ {α : Type} (m : List α) (x y z : α) :
    (m ++ [x, y]).set m.length z = m ++ [z, y] := by
  induction m with
  | nil => rfl
  | cons a m ih => simp [ih]

theorem finish_eq (env : Env) (m : List (Option (List Byte))) (b1 : List Byte)
    (si so : List Byte) (lg : List Event) (hlen : b1.length = BUFSIZE) :
    finish env m.length { stdin := si, stdout := so, mem := m ++ [some b1], log := lg } =
    (if NUL ∈ b1 then
      if size_sub (cstr b1).length 1 < BUFSIZE then
        if env.mallocOk ((cstr (b1.set (size_sub (cstr b1).length 1) NUL)).length + 1) then
          (Result.ok (some (m.length + 1)),
            { stdin := si, stdout := so,
              mem := m ++ [none, some (cstr (b1.set (size_sub (cstr b1).length 1) NUL) ++ [NUL])],
              log := lg ++ [Event.assign m.length (size_sub (cstr b1).length 1)] })
        else (Result.ok none,
            { stdin := si, stdout := so, mem := m ++ [none],
              log := lg ++ [Event.assign m.length (size_sub (cstr b1).length 1)] })
      else (Result.undefined Undefined.outOfBoundsWrite,
            { stdin := si, stdout := so, mem := m ++ [some b1],
              log := lg ++ [Event.assign m.length (size_sub (cstr b1).length 1)] })
    else (Result.undefined Undefined.outOfBoundsRead,
            { stdin := si, stdout := so, mem := m ++ [some b1], log := lg })) := by
  by_cases h0 : NUL ∈ b1
  · by_cases hi : size_sub (cstr b1).length 1 < BUFSIZE
    · have hi2 : size_sub (cstr b1).length 1 < b1.length := by rw [hlen]; exact hi
      have hmem := nul_mem_set_nul b1 _ hi2
      by_cases hm : env.mallocOk ((cstr (b1.set (size_sub (cstr b1).length 1) NUL)).length + 1) = true
      · simp [finish, Prog.bind, Prog.pure, strlen, assign, strdup, endLifetime, World.block, h0, hi, hi2, hm, hmem, set_snoc]
      · simp [finish, Prog.bind, Prog.pure, strlen, assign, strdup, endLifetime, World.block, h0, hi, hi2, hm, hmem, set_snoc]
    · have hi2 : ¬ size_sub (cstr b1).length 1 < b1.length := by rw [hlen]; exact hi
      simp [finish, Prog.bind, Prog.pure, strlen, assign, World.block, h0, hi, hi2]
  · simp [finish, Prog.bind, Prog.pure, strlen, World.block, h0]

theorem get_string_unfold (env : Env) (prompt : List Byte) :
    get_string env prompt =
      Prog.bind (autoArray env BUFSIZE) fun buf =>
      Prog.bind (printf_s prompt) fun _ =>
      Prog.bind (fgets buf BUFSIZE) fun _ => finish env buf := rfl

theorem get_string_eq (env : Env) (prompt : List Byte) (w : World) :
    get_string env prompt w = outcome env prompt w := by
  have hlen := bufAfterRead_length env w.stdin
  rw [get_string_unfold]
  simp only [Prog.bind, autoArray, printf_s]
  simp only [fgets, World.block, List.get?_eq_getElem?, List.getElem?_concat_length,
    List.length_map, List.length_range, lt_irrefl, if_false]
  simp only [outcome, worldAfterRead, stripped, stripIndex]
  cases hs : w.stdin with
  | nil =>
    rw [hs] at hlen
    simp only [BUFSIZE, Nat.reduceEqDiff, if_false, fgetsTake, List.length_nil, List.drop_zero]
    have := finish_eq env w.mem (bufAfterRead env []) [] (w.stdout ++ cstr prompt)
      (w.log ++ [Event.wrote (cstr prompt)] ++ [Event.consumed []]) hlen
    simp only [bufAfterRead, freshBuf, BUFSIZE, List.append_assoc, List.singleton_append] at this ⊢
    exact this
  | cons b s =>
    rw [hs] at hlen
    simp only [BUFSIZE, Nat.reduceEqDiff, if_false, set_snoc]
    have := finish_eq env w.mem (bufAfterRead env (b :: s))
      (List.drop (fgetsTake (BUFSIZE - 1) (b :: s)).length (b :: s)) (w.stdout ++ cstr prompt)
      (w.log ++ [Event.wrote (cstr prompt)] ++ [Event.consumed (fgetsTake (BUFSIZE - 1) (b :: s))]) hlen
    simp only [bufAfterRead, freshBuf, BUFSIZE, List.append_assoc, List.singleton_append] at this ⊢
    exact this

/-! ## What the closed form gives -/

theorem size_sub_one (n : Nat) (h1 : 1 ≤ n) (h2 : n ≤ BUFSIZE) : size_sub n 1 = n - 1 := by
  simp only [size_sub, SIZE_BITS, BUFSIZE] at h2 ⊢
  omega

theorem size_sub_zero_one : size_sub 0 1 = 2 ^ SIZE_BITS - 1 := by
  simp [size_sub, SIZE_BITS]

theorem cstr_bufAfterRead_cons (env : Env) (b : Byte) (s : List Byte) :
    cstr (bufAfterRead env (b :: s)) = cstr (fgetsTake (BUFSIZE - 1) (b :: s)) := by
  simp only [bufAfterRead, cstr_append_nul]

theorem nul_mem_bufAfterRead_cons (env : Env) (b : Byte) (s : List Byte) :
    NUL ∈ bufAfterRead env (b :: s) := by
  simp [bufAfterRead]

theorem cstr_line_length_pos (b : Byte) (s : List Byte) (hb : b ≠ NUL) :
    1 ≤ (cstr (fgetsTake (BUFSIZE - 1) (b :: s))).length := by
  obtain ⟨t, ht⟩ := fgetsTake_cons_head (BUFSIZE - 2) b s
  have : BUFSIZE - 1 = BUFSIZE - 2 + 1 := by simp [BUFSIZE]
  rw [this, ht, cstr_cons_of_ne b t hb]
  simp

theorem cstr_line_length_le (input : List Byte) :
    (cstr (fgetsTake (BUFSIZE - 1) input)).length ≤ BUFSIZE - 1 :=
  le_trans (cstr_length_le _) (fgetsTake_length_le _ _)

/-- When the first byte read is not NUL, the index of the assignment is
`strlen(buf) - 1` without wrap-around. -/
theorem stripIndex_cons (env : Env) (b : Byte) (s : List Byte) (hb : b ≠ NUL) :
    stripIndex env (b :: s) = (cstr (fgetsTake (BUFSIZE - 1) (b :: s))).length - 1 := by
  have h1 := cstr_line_length_pos b s hb
  have h2 := cstr_line_length_le (b :: s)
  rw [stripIndex, cstr_bufAfterRead_cons]
  exact size_sub_one _ h1 (le_trans h2 (by simp [BUFSIZE]))

theorem stripIndex_cons_lt (env : Env) (b : Byte) (s : List Byte) (hb : b ≠ NUL) :
    stripIndex env (b :: s) < BUFSIZE - 1 := by
  have h1 := cstr_line_length_pos b s hb
  have h2 := cstr_line_length_le (b :: s)
  rw [stripIndex_cons env b s hb]
  omega

/-- When the first byte read is not NUL, the string left in `buf` is the
string that was read without its last byte. -/
theorem stripped_cons (env : Env) (b : Byte) (s : List Byte) (hb : b ≠ NUL) :
    stripped env (b :: s) = (cstr (fgetsTake (BUFSIZE - 1) (b :: s))).dropLast := by
  have h1 := cstr_line_length_pos b s hb
  rw [stripped, stripIndex_cons env b s hb, cstr_set_nul, cstr_bufAfterRead_cons,
    take_pred_eq_dropLast]
  rw [cstr_bufAfterRead_cons]
  omega

theorem nul_not_mem_stripped (env : Env) (input : List Byte) : NUL ∉ stripped env input :=
  nul_not_mem_cstr _

theorem block_snoc₂ (m : List (Option (List Byte))) (x : Option (List Byte)) (y : List Byte)
    (si so : List Byte) (lg : List Event) :
    World.block { stdin := si, stdout := so, mem := m ++ [x, some y], log := lg } (m.length + 1)
      = some y := by
  have h : (m ++ [x, some y]).get? (m.length + 1) = some (some y) := by
    induction m with
    | nil => rfl
    | cons a m ih => simpa using ih
  simp only [World.block, h]

theorem returned_get_string (env : Env) (prompt : List Byte) (w : World) :
    returned (get_string env prompt w) = returnedOf env w.stdin := by
  rw [get_string_eq]
  unfold outcome returnedOf
  by_cases h0 : NUL ∈ bufAfterRead env w.stdin
  · by_cases hi : stripIndex env w.stdin < BUFSIZE
    · by_cases hm : env.mallocOk ((stripped env w.stdin).length + 1) = true
      · have hc : cstr (stripped env w.stdin ++ [NUL]) = stripped env w.stdin := by
          rw [cstr_append_nul, cstr_of_no_nul _ (nul_not_mem_stripped env w.stdin)]
        simp only [h0, hi, hm, if_true, returned, World.cstring, block_snoc₂, Option.map_some', hc]
      · simp only [h0, hi, hm, if_true, if_false, returned, Bool.false_eq_true]
    · simp only [h0, hi, if_true, if_false, returned]
  · simp only [h0, if_false, returned]

theorem returnedOf_cons (env : Env) (b : Byte) (s : List Byte) (hb : b ≠ NUL) :
    returnedOf env (b :: s) =
      if env.mallocOk ((cstr (fgetsTake (BUFSIZE - 1) (b :: s))).dropLast.length + 1) then
        Result.ok (some (cstr (fgetsTake (BUFSIZE - 1) (b :: s))).dropLast)
      else Result.ok none := by
  have hi : stripIndex env (b :: s) < BUFSIZE :=
    lt_of_lt_of_le (stripIndex_cons_lt env b s hb) (Nat.sub_le _ _)
  simp only [returnedOf, nul_mem_bufAfterRead_cons, hi, if_true, stripped_cons env b s hb]

theorem stdin_get_string (env : Env) (prompt : List Byte) (w : World) :
    (get_string env prompt w).2.stdin = w.stdin.drop (fgetsTake (BUFSIZE - 1) w.stdin).length := by
  rw [get_string_eq]
  unfold outcome worldAfterRead
  split_ifs <;> rfl

theorem stdout_get_string (env : Env) (prompt : List Byte) (w : World) :
    (get_string env prompt w).2.stdout = w.stdout ++ cstr prompt := by
  rw [get_string_eq]
  unfold outcome worldAfterRead
  split_ifs <;> rfl

/-- The events of a call: the write, the read, and after them at most the
assignment to `buf`. -/
theorem log_get_string (env : Env) (prompt : List Byte) (w : World) :
    ∃ rest, (get_string env prompt w).2.log =
        w.log ++ Event.wrote (cstr prompt) ::
          Event.consumed (fgetsTake (BUFSIZE - 1) w.stdin) :: rest ∧
      (rest = [] ∨ rest = [Event.assign w.mem.length (stripIndex env w.stdin)]) := by
  rw [get_string_eq]
  unfold outcome worldAfterRead
  split_ifs
  · exact ⟨_, by simp, Or.inr rfl⟩
  · exact ⟨_, by simp, Or.inr rfl⟩
  · exact ⟨_, by simp, Or.inr rfl⟩
  · exact ⟨_, by simp, Or.inl rfl⟩

theorem lineEnd_cons_of_ne (b : Byte) (s : List Byte) (h : b ≠ NEWLINE) :
    lineEnd (b :: s) = lineEnd s + 1 := by
  simp [lineEnd, h]

theorem lineEnd_cons_newline (s : List Byte) : lineEnd (NEWLINE :: s) = 1 := by
  simp [lineEnd]

/-- The bytes `fgets` takes are the first `min (min lineEnd k) length` bytes. -/
theorem fgetsTake_eq_take_min (k : Nat) (s : List Byte) :
    fgetsTake k s = s.take (min (min (lineEnd s) k) s.length) := by
  induction k generalizing s with
  | zero => simp [fgetsTake]
  | succ k ih =>
    cases s with
    | nil => simp [fgetsTake]
    | cons b s =>
      by_cases h : b = NEWLINE
      · subst h
        have : min (min 1 (k + 1)) (s.length + 1) = 1 := by omega
        simp [fgetsTake, lineEnd_cons_newline, this]
      · have : min (min (lineEnd s + 1) (k + 1)) (s.length + 1)
            = min (min (lineEnd s) k) s.length + 1 := by omega
        simp only [fgetsTake, if_neg h, lineEnd_cons_of_ne b s h, List.length_cons, this,
          List.take_succ_cons, ih s]

theorem lineRead_eq_take (input : List Byte) :
    lineRead input = input.take (consumedCount input) :=
  fgetsTake_eq_take_min _ _

theorem lineRead_length (input : List Byte) :
    (lineRead input).length = consumedCount input := by
  rw [lineRead_eq_take, List.length_take]
  simp only [consumedCount]
  omega

theorem returnedOf_defined (env : Env) (input : List Byte) (b : Byte) (t : List Byte)
    (hin : input = b :: t) (hb : b ≠ NUL) :
    returnedOf env input =
      if env.mallocOk ((cstr (lineRead input)).dropLast.length + 1) then
        Result.ok (some (cstr (lineRead input)).dropLast)
      else Result.ok none := by
  subst hin
  exact returnedOf_cons env b t hb

theorem head_lineRead (b : Byte) (s : List Byte) : ∃ t, lineRead (b :: s) = b :: t :=
  fgetsTake_cons_head (BUFSIZE - 2) b s

theorem fgetsTake_nil (k : Nat) : fgetsTake k [] = [] := by
  cases k <;> rfl

/-- At end-of-file `buf` is left as it was; when its first byte happens to be
zero, the assignment is attempted at index `strlen(buf) - 1 = SIZE_MAX`. -/
theorem get_string_eof_zero (env : Env) (prompt : List Byte) (w : World)
    (hin : w.stdin = []) (h0 : env.indeterminate 0 = NUL) :
    get_string env prompt w =
      (Result.undefined Undefined.outOfBoundsWrite,
        { stdin := [], stdout := w.stdout ++ cstr prompt,
          mem := w.mem ++ [some (freshBuf env)],
          log := w.log ++ [Event.wrote (cstr prompt), Event.consumed [],
            Event.assign w.mem.length (2 ^ SIZE_BITS - 1)] }) := by
  have hf : freshBuf env = NUL :: (List.range (BUFSIZE - 1)).map (fun i => env.indeterminate (i + 1)) := by
    have : BUFSIZE = (BUFSIZE - 1) + 1 := by simp [BUFSIZE]
    rw [freshBuf, this, List.range_succ_eq_map]
    simp [h0, Function.comp_def]
  have hi : stripIndex env [] = 2 ^ SIZE_BITS - 1 := by
    rw [stripIndex, bufAfterRead, hf, cstr_cons_nul]
    exact size_sub_zero_one
  have hmem : NUL ∈ bufAfterRead env [] := by
    rw [bufAfterRead, hf]; exact List.mem_cons_self _ _
  have hnot : ¬ (2 ^ SIZE_BITS - 1 < BUFSIZE) := by simp [SIZE_BITS, BUFSIZE]
  obtain ⟨si, so, m, lg⟩ := w
  simp only at hin
  subst hin
  rw [get_string_eq]
  simp only [outcome, hmem, hi, hnot, if_true, if_false, worldAfterRead, fgetsTake_nil,
    List.length_nil, List.drop_nil, List.append_assoc, List.cons_append, List.nil_append]
  rfl

/-- At end-of-file `buf` is left as it was; when it happens to hold no zero
byte, `strlen` runs off its end. -/
theorem get_string_eof_full (env : Env) (prompt : List Byte) (w : World)
    (hin : w.stdin = []) (h0 : ∀ i, env.indeterminate i ≠ NUL) :
    (get_string env prompt w).1 = Result.undefined Undefined.outOfBoundsRead := by
  have hmem : NUL ∉ bufAfterRead env [] := by
    simp only [bufAfterRead, freshBuf, List.mem_map, not_exists, not_and]
    intro i _ h
    exact h0 i h
  obtain ⟨si, so, m, lg⟩ := w
  simp only at hin
  subst hin
  rw [get_string_eq]
  simp only [outcome, hmem, if_false]

/-! ## The claims -/

/-- C1: when the unread input starts with a line `s` of fewer than
`BUFSIZE - 1 = 1023` bytes, none of them a newline or a NUL, followed by a
newline, and the one `malloc` request of the call (for `s.length + 1` bytes)
succeeds, `get_string` returns exactly `s`, whatever the prompt. -/
theorem get_string_returns_line (env : Env) (prompt s rest : List Byte) (w : World)
    (hin : w.stdin = s ++ NEWLINE :: rest) (hnl : NEWLINE ∉ s) (hnul : NUL ∉ s)
    (hlen : s.length < BUFSIZE - 1) (hm : env.mallocOk (s.length + 1) = true) :
    returned (get_string env prompt w) = Result.ok (some s) := by
  have hline : lineRead w.stdin = s ++ [NEWLINE] := by
    rw [hin]; exact fgetsTake_line _ s rest hlen hnl
  have hno : NUL ∉ s ++ [NEWLINE] := by
    simp only [List.mem_append, List.mem_singleton, not_or]
    exact ⟨hnul, by decide⟩
  have hhead : ∃ b t, w.stdin = b :: t ∧ b ≠ NUL := by
    cases s with
    | nil => exact ⟨NEWLINE, rest, hin, by decide⟩
    | cons b s =>
      simp only [List.mem_cons, not_or] at hnul
      exact ⟨b, s ++ NEWLINE :: rest, hin, fun e => hnul.1 e.symm⟩
  obtain ⟨b, t, hbt, hb⟩ := hhead
  rw [returned_get_string, returnedOf_defined env w.stdin b t hbt hb, hline,
    cstr_of_no_nul _ hno, List.dropLast_concat, hm]
  rfl

/-- C1, on the scenarios of the specification: the input `"Alice\n"` with the
prompt `"Name: "` gives `"Alice"`, and the empty line `"\n"` with the prompt
`"X: "` gives the empty string. -/
theorem get_string_returns_line_witness :
    returned (get_string zeroEnv [78, 97, 109, 101, 58, 32] (stdWorld [65, 108, 105, 99, 101, 10]))
        = Result.ok (some [65, 108, 105, 99, 101]) ∧
      returned (get_string zeroEnv [88, 58, 32] (stdWorld [10])) = Result.ok (some []) :=
  ⟨get_string_returns_line zeroEnv [78, 97, 109, 101, 58, 32] [65, 108, 105, 99, 101] []
      (stdWorld [65, 108, 105, 99, 101, 10]) rfl (by decide) (by decide) (by decide) rfl,
    get_string_returns_line zeroEnv [88, 58, 32] [] [] (stdWorld [10]) rfl (by decide)
      (by decide) (by decide) rfl⟩

/-- C9: when the read takes at least one byte, the bytes it takes hold no NUL,
and the one `malloc` request of the call succeeds, the bytes taken are the
start of the input that is gone afterwards, and `get_string` returns them
without their last byte, whatever that byte is: a string one byte shorter, of
at most `BUFSIZE - 2 = 1022` bytes, with no newline in it. -/
theorem get_string_drops_last_byte (env : Env) (prompt : List Byte) (w : World)
    (hne : w.stdin ≠ []) (hnul : NUL ∉ lineRead w.stdin)
    (hm : env.mallocOk ((lineRead w.stdin).dropLast.length + 1) = true) :
    w.stdin = lineRead w.stdin ++ (get_string env prompt w).2.stdin ∧
      returned (get_string env prompt w) = Result.ok (some (lineRead w.stdin).dropLast) ∧
      (lineRead w.stdin).dropLast.length = (lineRead w.stdin).length - 1 ∧
      (lineRead w.stdin).dropLast.length ≤ BUFSIZE - 2 ∧
      NEWLINE ∉ (lineRead w.stdin).dropLast := by
  have hle : (lineRead w.stdin).length ≤ BUFSIZE - 1 := fgetsTake_length_le _ _
  refine ⟨?_, ?_, List.length_dropLast _, ?_, newline_not_mem_dropLast_fgetsTake _ _⟩
  · rw [stdin_get_string]
    conv_lhs => rw [← List.take_append_drop (fgetsTake (BUFSIZE - 1) w.stdin).length w.stdin]
    rw [← fgetsTake_eq_take]
    rfl
  · cases hs : w.stdin with
    | nil => exact absurd hs hne
    | cons b s =>
      rw [hs] at hnul hm
      obtain ⟨t, ht⟩ := head_lineRead b s
      have hb : b ≠ NUL := by
        intro e
        apply hnul
        rw [ht, e]
        exact List.mem_cons_self _ _
      rw [returned_get_string, hs, returnedOf_defined env (b :: s) b s rfl hb,
        cstr_of_no_nul _ hnul, hm]
      rfl
  · rw [List.length_dropLast]
    simp only [BUFSIZE] at hle ⊢
    omega

/-- C9, on the input `"yes!"` with no newline after it: `"yes"` is returned. -/
theorem get_string_drops_last_byte_witness :
    returned (get_string zeroEnv [] (stdWorld [121, 101, 115, 33])) =
      Result.ok (some [121, 101, 115]) :=
  (get_string_drops_last_byte zeroEnv [] (stdWorld [121, 101, 115, 33]) (by decide) (by decide)
    rfl).2.1

/-- C10: when the read takes at least one byte and the first byte taken is not
NUL, the call is not undefined, and its one assignment goes to the scratch
buffer (the block created on entry, of `BUFSIZE = 1024` bytes) at an index `i`
with `i + 1 = strlen(buf)`, so without wrap-around, and `i ≤ BUFSIZE - 2 = 1022`. -/
theorem strip_index_in_bounds (env : Env) (prompt : List Byte) (w : World) (b : Byte)
    (s : List Byte) (hin : w.stdin = b :: s) (hb : b ≠ NUL) :
    ∃ i, (get_string env prompt w).2.log =
          w.log ++ [Event.wrote (cstr prompt), Event.consumed (lineRead w.stdin),
            Event.assign w.mem.length i] ∧
      i + 1 = (cstr (lineRead w.stdin)).length ∧
      i ≤ BUFSIZE - 2 ∧
      ∃ r, (get_string env prompt w).1 = Result.ok r := by
  have h1 := cstr_line_length_pos b s hb
  have h2 := cstr_line_length_le (b :: s)
  have hi := stripIndex_cons env b s hb
  have hlt : stripIndex env (b :: s) < BUFSIZE :=
    lt_of_lt_of_le (stripIndex_cons_lt env b s hb) (Nat.sub_le _ _)
  have hmem := nul_mem_bufAfterRead_cons env b s
  refine ⟨stripIndex env w.stdin, ?_, ?_, ?_, ?_⟩
  · rw [get_string_eq]
    simp only [outcome, hin, hmem, hlt, if_true, worldAfterRead, lineRead]
    split_ifs <;> simp
  · rw [hin, hi]
    show (cstr (fgetsTake (BUFSIZE - 1) (b :: s))).length - 1 + 1 =
      (cstr (fgetsTake (BUFSIZE - 1) (b :: s))).length
    omega
  · rw [hin, hi]
    simp only [BUFSIZE] at h2 ⊢
    omega
  · rw [get_string_eq]
    simp only [outcome, hin, hmem, hlt, if_true]
    split_ifs
    · exact ⟨_, rfl⟩
    · exact ⟨_, rfl⟩

/-- C10, on the input `"Alice\n"`: `strlen(buf)` is 6 and the assignment is
`buf[5] = '\0'`, made in block 0, the scratch buffer. -/
theorem strip_index_in_bounds_witness :
    (get_string zeroEnv [] (stdWorld [65, 108, 105, 99, 101, 10])).2.log =
      [Event.wrote [], Event.consumed [65, 108, 105, 99, 101, 10], Event.assign 0 5] := by
  obtain ⟨i, hlog, hi, _⟩ := strip_index_in_bounds zeroEnv []
    (stdWorld [65, 108, 105, 99, 101, 10]) 65 [108, 105, 99, 101, 10] rfl (by decide)
  have hline : lineRead (stdWorld [65, 108, 105, 99, 101, 10]).stdin
      = [65, 108, 105, 99, 101, 10] := by decide
  have hlen : (cstr (lineRead (stdWorld [65, 108, 105, 99, 101, 10]).stdin)).length = 6 := by
    decide
  have h5 : i = 5 := by omega
  rw [hlog, hline, h5]
  rfl

/-- C5: for every prompt and every world, one call appends the bytes of the
prompt string to the output and nothing else; its events start with that one
write, then the read, and no later event is a write or a read, so the write
is made once and before any input byte is taken.  The bytes written are
those of the prompt whatever the input is; a prompt array with no NUL in it
is written whole. -/
theorem prompt_written_once_before_read (env : Env) (prompt : List Byte) (w : World) :
    (get_string env prompt w).2.stdout = w.stdout ++ cstr prompt ∧
      (∃ rest, (get_string env prompt w).2.log =
          w.log ++ Event.wrote (cstr prompt) :: Event.consumed (lineRead w.stdin) :: rest ∧
        ∀ e ∈ rest, ∀ bytes, e ≠ Event.wrote bytes ∧ e ≠ Event.consumed bytes) ∧
      (NUL ∉ prompt → cstr prompt = prompt) := by
  refine ⟨stdout_get_string env prompt w, ?_, cstr_of_no_nul prompt⟩
  obtain ⟨rest, hlog, hrest⟩ := log_get_string env prompt w
  refine ⟨rest, hlog, ?_⟩
  intro e he bytes
  rcases hrest with h | h
  · rw [h] at he; exact absurd he (List.not_mem_nil _)
  · rw [h, List.mem_singleton] at he
    subst he
    exact ⟨fun e => Event.noConfusion e, fun e => Event.noConfusion e⟩

/-- C6: for every world, the input left after one call is the input before it
without its first `consumedCount` bytes (the bytes up to the end of the first
line, the first `BUFSIZE - 1 = 1023` bytes, or all of them, whichever is
least), those bytes are what the one read of the call takes, and the call
makes no other read. -/
theorem consumed_bytes (env : Env) (prompt : List Byte) (w : World) :
    (get_string env prompt w).2.stdin = w.stdin.drop (consumedCount w.stdin) ∧
      ∃ rest, (get_string env prompt w).2.log =
          w.log ++ Event.wrote (cstr prompt) ::
            Event.consumed (w.stdin.take (consumedCount w.stdin)) :: rest ∧
        ∀ e ∈ rest, ∀ bytes, e ≠ Event.consumed bytes := by
  constructor
  · rw [stdin_get_string, ← lineRead_length]
    rfl
  · obtain ⟨rest, hlog, hrest⟩ := log_get_string env prompt w
    refine ⟨rest, ?_, ?_⟩
    · rw [hlog, ← lineRead_eq_take]
      rfl
    · intro e he bytes
      rcases hrest with h | h
      · rw [h] at he; exact absurd he (List.not_mem_nil _)
      · rw [h, List.mem_singleton] at he
        subst he
        exact fun e => Event.noConfusion e

/-- C7: on an input whose first byte is not NUL, when the `malloc` request of
the final copy fails the call returns the null pointer and leaves no new live
block behind, and in every case the call returns either the null pointer or
the complete stripped line. -/
theorem allocation_failure_returns_null (env : Env) (prompt : List Byte) (w : World)
    (b : Byte) (s : List Byte) (hin : w.stdin = b :: s) (hb : b ≠ NUL) :
    (env.mallocOk ((cstr (lineRead w.stdin)).dropLast.length + 1) = false →
        (get_string env prompt w).1 = Result.ok none ∧
          (get_string env prompt w).2.mem = w.mem ++ [none]) ∧
      (returned (get_string env prompt w) = Result.ok none ∨
        returned (get_string env prompt w) =
          Result.ok (some (cstr (lineRead w.stdin)).dropLast)) := by
  have hlt : stripIndex env (b :: s) < BUFSIZE :=
    lt_of_lt_of_le (stripIndex_cons_lt env b s hb) (Nat.sub_le _ _)
  have hmem := nul_mem_bufAfterRead_cons env b s
  have hst := stripped_cons env b s hb
  constructor
  · intro hm
    rw [hin] at hm
    have hm2 : env.mallocOk ((stripped env (b :: s)).length + 1) = false := by
      rw [hst]; exact hm
    rw [get_string_eq]
    simp only [outcome, hin, hmem, hlt, hm2, if_true, if_false, Bool.false_eq_true, and_self]
  · rw [returned_get_string, returnedOf_defined env w.stdin b s hin hb]
    split_ifs
    · exact Or.inr rfl
    · exact Or.inl rfl

/-- C7, on the input `"Alice\n"` with a `malloc` that fails: the null pointer
is returned. -/
theorem allocation_failure_returns_null_witness :
    (get_string noMemEnv [] (stdWorld [65, 108, 105, 99, 101, 10])).1 = Result.ok none ∧
      (get_string noMemEnv [] (stdWorld [65, 108, 105, 99, 101, 10])).2.mem = [none] :=
  (allocation_failure_returns_null noMemEnv [] (stdWorld [65, 108, 105, 99, 101, 10]) 65
    [108, 105, 99, 101, 10] rfl (by decide)).1 rfl

theorem observe_get_string (env : Env) (prompt : List Byte) (w : World) :
    observe (get_string env prompt w) =
      (returnedOf env w.stdin, w.stdin.drop (lineRead w.stdin).length, w.stdout ++ cstr prompt) := by
  simp only [observe, returned_get_string, stdin_get_string, stdout_get_string, lineRead]

theorem assign_streams (p : Ptr) (i : Nat) (v : Byte) (w : World) :
    (assign p i v w).2.stdin = w.stdin ∧ (assign p i v w).2.stdout = w.stdout := by
  unfold assign
  split
  · exact ⟨rfl, rfl⟩
  · split <;> exact ⟨rfl, rfl⟩

theorem free_streams (p : Ptr) (w : World) :
    (free p w).2.stdin = w.stdin ∧ (free p w).2.stdout = w.stdout := by
  unfold free
  split <;> exact ⟨rfl, rfl⟩

/-- When a call returns a pointer, that pointer is the block after the scratch
buffer, and the final memory is the old one, the dead scratch buffer, and the
copy. -/
theorem mem_of_returned_pointer (env : Env) (prompt : List Byte) (w : World) (p : Ptr)
    (h : (get_string env prompt w).1 = Result.ok (some p)) :
    p = w.mem.length + 1 ∧
      (get_string env prompt w).2.mem = w.mem ++ [none, some (stripped env w.stdin ++ [NUL])] ∧
      returned (get_string env prompt w) = Result.ok (some (stripped env w.stdin)) := by
  have hr := returned_get_string env prompt w
  rw [get_string_eq] at h hr ⊢
  unfold outcome at h hr ⊢
  unfold returnedOf at hr
  split_ifs at h hr ⊢
  · simp only [Result.ok.injEq, Option.some.injEq] at h
    exact ⟨h.symm, rfl, hr⟩
  all_goals simp at h

/-- C8: when a call returns a pointer `p`, then `p` names a block that did not
exist before the call and is not the scratch buffer: the final memory is the
memory before the call, unchanged, then the scratch buffer, dead, then the
block `p` holding the returned string and its terminator.  Writing a byte
into that block or freeing it changes nothing a later call lets its caller
observe: the string it returns, the input it leaves and the output it writes are
the same as without the change. -/
theorem returned_buffer_is_independent (env : Env) (prompt : List Byte) (w : World) (p : Ptr)
    (h : (get_string env prompt w).1 = Result.ok (some p)) :
    p = w.mem.length + 1 ∧
      (∃ str, (get_string env prompt w).2.mem = w.mem ++ [none, some (str ++ [NUL])] ∧
        returned (get_string env prompt w) = Result.ok (some str)) ∧
      (∀ (later : List Byte) (i : Nat) (v : Byte),
        observe (get_string env later (assign p i v (get_string env prompt w).2).2) =
          observe (get_string env later (get_string env prompt w).2)) ∧
      (∀ later : List Byte,
        observe (get_string env later (free p (get_string env prompt w).2).2) =
          observe (get_string env later (get_string env prompt w).2)) := by
  obtain ⟨hp, hmem, hret⟩ := mem_of_returned_pointer env prompt w p h
  refine ⟨hp, ⟨_, hmem, hret⟩, ?_, ?_⟩
  · intro later i v
    obtain ⟨h1, h2⟩ := assign_streams p i v (get_string env prompt w).2
    rw [observe_get_string, observe_get_string, h1, h2]
  · intro later
    obtain ⟨h1, h2⟩ := free_streams p (get_string env prompt w).2
    rw [observe_get_string, observe_get_string, h1, h2]

/-- C8, on the input `"Alice\nBob\n"`: the first call returns block 1, and what
a second call lets its caller observe is the same whether or not the caller
has freed that block in between. -/
theorem returned_buffer_is_independent_witness :
    observe (get_string zeroEnv []
        (free 1 (get_string zeroEnv [] (stdWorld [65, 108, 105, 99, 101, 10, 66, 111, 98, 10])).2).2) =
      observe (get_string zeroEnv []
        (get_string zeroEnv [] (stdWorld [65, 108, 105, 99, 101, 10, 66, 111, 98, 10])).2) :=
  (returned_buffer_is_independent zeroEnv []
    (stdWorld [65, 108, 105, 99, 101, 10, 66, 111, 98, 10]) 1
    (by rw [get_string_eq]; decide)).2.2.2 []

/-- C4: on the input `"abc"` followed by end-of-file, the read takes the three
bytes, none of them a newline, and `get_string` returns `"ab"`: the last byte is
dropped although it is not a line terminator. -/
theorem missing_newline_loses_a_byte :
    lineRead [97, 98, 99] = [97, 98, 99] ∧
      returned (get_string zeroEnv [] (stdWorld [97, 98, 99])) = Result.ok (some [97, 98]) := by
  refine ⟨by decide, ?_⟩
  rw [returned_get_string]
  show returnedOf zeroEnv [97, 98, 99] = _
  rw [returnedOf_defined zeroEnv [97, 98, 99] 97 [98, 99] rfl (by decide)]
  decide

/-- C2: on a line of 1500 bytes `'A'`, the read takes the first
`BUFSIZE - 1 = 1023` of them and `get_string` returns only the first 1022. -/
theorem truncation_drops_a_byte :
    lineRead (List.replicate 1500 65 ++ [NEWLINE]) = List.replicate 1023 65 ∧
      returned (get_string zeroEnv [] (stdWorld (List.replicate 1500 65 ++ [NEWLINE]))) =
        Result.ok (some (List.replicate 1022 65)) := by
  have hmin : min (BUFSIZE - 1) 1500 = 1023 := by decide
  have htake : (List.replicate 1500 65 ++ [NEWLINE]).take (BUFSIZE - 1) = List.replicate 1023 65 := by
    rw [List.take_append_of_le_length (by rw [List.length_replicate]; decide),
      List.take_replicate, hmin]
  have hnl : NEWLINE ∉ (List.replicate 1500 65 ++ [NEWLINE]).take (BUFSIZE - 1) := by
    rw [htake]
    exact fun h => absurd (List.eq_of_mem_replicate h) (by decide)
  have hline : lineRead (List.replicate 1500 65 ++ [NEWLINE]) = List.replicate 1023 65 := by
    rw [lineRead, fgetsTake_long _ _
      (by rw [List.length_append, List.length_replicate]; decide) hnl, htake]
  refine ⟨hline, ?_⟩
  have hcons : List.replicate 1500 65 ++ [NEWLINE] = 65 :: (List.replicate 1499 65 ++ [NEWLINE]) := rfl
  have hno : NUL ∉ List.replicate 1023 65 :=
    fun h => absurd (List.eq_of_mem_replicate h) (by decide)
  rw [returned_get_string]
  show returnedOf zeroEnv (List.replicate 1500 65 ++ [NEWLINE]) = _
  rw [returnedOf_defined zeroEnv _ 65 _ hcons (by decide), hline, cstr_of_no_nul _ hno,
    List.dropLast_replicate]
  exact if_pos rfl

/-- C3: at immediate end-of-file nothing guards the assignment.  With a stack
that reads as zeros, `strlen(buf)` is 0 and the call writes at index
`SIZE_MAX`, outside `buf`; with a stack that holds no zero byte, `strlen` reads
beyond the end of `buf`. -/
theorem end_of_file_is_not_guarded :
    (get_string zeroEnv [88, 58, 32] (stdWorld [])).1 =
        Result.undefined Undefined.outOfBoundsWrite ∧
      (get_string zeroEnv [88, 58, 32] (stdWorld [])).2.log =
        [Event.wrote [88, 58, 32], Event.consumed [], Event.assign 0 (2 ^ 64 - 1)] ∧
      (get_string fullEnv [88, 58, 32] (stdWorld [])).1 =
        Result.undefined Undefined.outOfBoundsRead := by
  have hz := get_string_eof_zero zeroEnv [88, 58, 32] (stdWorld []) rfl rfl
  refine ⟨?_, ?_, get_string_eof_full fullEnv [88, 58, 32] (stdWorld []) rfl (fun _ => by show (255 : Nat) ≠ 0; decide)⟩
  · rw [hz]
  · rw [hz]; decide

end Prog1
